import Mathlib

/-!
Verification of the AWD-LSTM language-model encoder
(open_seq2seq/encoders/lm_encoders.py, class AWDLSTMEncoder).

The development shallowly embeds the parts of the encoder the claims are
about:

* the dropout keep-probability selection of _encode (lines 162-170);
* the output projection / weight-tying / embedding-dropout block
  (lines 172-192), including the lazy shape discipline of tf.layers.Dense;
* the cell-stack construction (lines 194-222), keeping the parameter dicts
  abstract since the recurrent math lives in the external single_cell
  collaborator;
* the decode driver: tf.contrib.seq2seq.dynamic_decode with
  impute_finished=False (lines 285-291) driving a BasicDecoder over either a
  TrainingHelper (train/eval, lines 230-262) or a GreedyEmbeddingHelper
  (infer, lines 264-283).

Scalars are rationals; the randomness of a dropout invocation is an explicit
Boolean mask argument.  Batches are functions out of Fin B, and the recurrent
cell supplied by the external collaborator is an explicit step-function
parameter, applied pointwise across the batch exactly as the vectorized graph
does.
-/

set_option maxRecDepth 8000

/-- Mode of the encoder instance, mirroring the mode argument of
AWDLSTMEncoder.__init__ (one of train, eval, infer). -/
inductive Mode
  | train
  | eval
  | infer
deriving DecidableEq

/-- Vector of rational scalars, modelling a one-dimensional tensor. -/
abbrev Vec (n : ℕ) := Fin n → ℚ

/-- Five dropout keep probabilities of the encoder: cell input, cell output,
last-layer input, last-layer output, embedding.  Also used for the
configured values encoder_dp_input_keep_prob, encoder_dp_output_keep_prob,
encoder_last_input_keep_prob, encoder_last_output_keep_prob,
encoder_emb_keep_prob. -/
structure DropoutConfig where
  dpInput : ℚ
  dpOutput : ℚ
  lastInput : ℚ
  lastOutput : ℚ
  emb : ℚ
deriving DecidableEq

/-- Keep probabilities actually used by _encode, mirroring lines 162-170 of
lm_encoders.py: in train mode the configured values are read from params;
in every other mode all five are forced to the constant 1.0. -/
def effectiveKeepProbs (mode : Mode) (c : DropoutConfig) : DropoutConfig :=
  if mode = Mode.train then c else ⟨1, 1, 1, 1, 1⟩

/-- Model of tf.nn.dropout applied to one scalar.  tf.nn.dropout returns its
input unchanged when keep_prob is the constant 1; otherwise each entry is
kept (and rescaled by 1/keep_prob) or zeroed according to the random draw of
this invocation, which the Boolean argument makes explicit. -/
def dropoutScalar (keep : ℚ) (keepIt : Bool) (x : ℚ) : ℚ :=
  if keep = 1 then x else if keepIt then x / keep else 0

/-- Dropout applied entrywise to a whole matrix, as in line 192 where the
embedding table receives one static dropout application. -/
def dropoutMat {m n : ℕ} (keep : ℚ) (mask : Fin m → Fin n → Bool)
    (M : Fin m → Fin n → ℚ) : Fin m → Fin n → ℚ :=
  fun i j => dropoutScalar keep (mask i j) (M i j)

/-- Transpose of the output projection kernel, modelling lines 179-183: under
weight tying the Dense layer is first applied to a zero probe of shape
(1, emb_size), which materializes its kernel with input dimension emb_size
and output dimension vocab_size, and the embedding matrix is obtained as
tf.transpose of that kernel variable. -/
def tiedEmbRaw {e v : ℕ} (K : Fin e → Fin v → ℚ) : Fin v → Fin e → ℚ :=
  fun i j => K j i

/-- Embedding matrix self._enc_emb_w as built in lines 179-192: the transpose
of the projection kernel when weight_tied, otherwise the independently
allocated EncoderEmbeddingMatrix variable; embedding dropout with the
effective keep probability is then applied to the whole table. -/
def buildEncEmbW {e v : ℕ} (weightTied : Bool) (K : Fin e → Fin v → ℚ)
    (indep : Fin v → Fin e → ℚ) (embKeep : ℚ) (mask : Fin v → Fin e → Bool) :
    Fin v → Fin e → ℚ :=
  dropoutMat embKeep mask (if weightTied then tiedEmbRaw K else indep)

/-- Arguments of one call to the external cell factory single_cell (the cell
parameter dict is kept abstract in the type parameter, since the recurrent
math is an external collaborator). -/
structure SingleCellCall (π : Type) where
  cellParams : π
  dpInputKeepProb : ℚ
  dpOutputKeepProb : ℚ
  residualConnections : Bool
  variationalRecurrent : Bool
deriving DecidableEq

/-- Parameter dict used for the last cell, lines 194-197: the dedicated
last_cell_params block exactly when weight_tied, otherwise the shared
core_cell_params. -/
def lastCellParams {π : Type} (weightTied : Bool) (coreParams lastParams : π) : π :=
  if weightTied then lastParams else coreParams

/-- Cell stack construction, lines 199-220: encoder_layers - 1 body cells
from the core spec with the common input/output keep probabilities, then one
appended last cell with its own keep probabilities and the parameter dict
selected by lastCellParams. -/
def buildFwdCells {π : Type} (weightTied : Bool) (numLayers : ℕ)
    (coreParams lastParams : π) (dpIn dpOut lastIn lastOut : ℚ)
    (skip variational : Bool) : List (SingleCellCall π) :=
  ((List.range (numLayers - 1)).map
      (fun _ => ⟨coreParams, dpIn, dpOut, skip, variational⟩))
    ++ [⟨lastCellParams weightTied coreParams lastParams, lastIn, lastOut, skip, variational⟩]

/-- Shape state of the lazily built Dense output layer: the input dimension
its kernel was built with, if it has been built. -/
structure DenseState where
  builtInputDim : Option ℕ
deriving DecidableEq

/-- Model of applying tf.layers.Dense at the shape level.  The first call
builds the kernel from the input's last dimension and pins the layer's input
spec to it; any later call whose last dimension differs violates the input
spec and raises during graph construction, which this model reports as an
error. -/
def denseCall (st : DenseState) (inputDim : ℕ) : Except Unit DenseState :=
  match st.builtInputDim with
  | none => Except.ok ⟨some inputDim⟩
  | some d => if inputDim = d then Except.ok st else Except.error ()

/-- Shape-level trace of the output-layer applications performed while
_encode builds its graph: under weight tying the layer is first applied to
the zero probe of width emb_size (line 181); the decoder then applies the
same layer object to the cell stack's hidden output of width hiddenDim at
every step (output_layer argument of BasicDecoder).  All of this happens at
graph-construction time, before any decode step is executed. -/
def encodeOutputLayerTrace (weightTied : Bool) (embSize hiddenDim : ℕ) :
    Except Unit DenseState :=
  (if weightTied then denseCall ⟨none⟩ embSize else Except.ok ⟨none⟩).bind
    (fun st => denseCall st hiddenDim)

/-- Claim C9: whenever the encoder's mode is not train, all five dropout keep
probabilities actually used are forced to 1.0, and in particular the
embedding-dropout application becomes the identity on the table, so the
configured dropout rates have no effect outside training. -/
theorem claim_c9_keep_probs_forced (mode : Mode) (c : DropoutConfig)
    (hmode : mode ≠ Mode.train) :
    effectiveKeepProbs mode c = ⟨1, 1, 1, 1, 1⟩ ∧
      ∀ (m n : ℕ) (mask : Fin m → Fin n → Bool) (M : Fin m → Fin n → ℚ),
        dropoutMat (effectiveKeepProbs mode c).emb mask M = M := by
  have h1 : effectiveKeepProbs mode c = ⟨1, 1, 1, 1, 1⟩ := by
    simp [effectiveKeepProbs, hmode]
  refine ⟨h1, ?_⟩
  intro m n mask M
  funext i j
  simp [dropoutMat, dropoutScalar, h1]

/-- Witness for C9 at a concrete non-train mode and concrete non-trivial
configured rates. -/
theorem claim_c9_witness :
    Mode.infer ≠ Mode.train ∧
      (effectiveKeepProbs Mode.infer ⟨1/2, 1/2, 2/5, 3/5, 7/10⟩ = ⟨1, 1, 1, 1, 1⟩ ∧
        ∀ (m n : ℕ) (mask : Fin m → Fin n → Bool) (M : Fin m → Fin n → ℚ),
          dropoutMat (effectiveKeepProbs Mode.infer ⟨1/2, 1/2, 2/5, 3/5, 7/10⟩).emb mask M = M) :=
  ⟨by decide, claim_c9_keep_probs_forced Mode.infer ⟨1/2, 1/2, 2/5, 3/5, 7/10⟩ (by decide)⟩

/-- Claim C8: the cell stack consists of numLayers - 1 body cells built from
the shared core parameters with the common input/output keep probabilities,
plus one last cell with its own keep probabilities, whose parameter dict is
the dedicated last_cell block exactly when weight tying is enabled and the
shared core dict otherwise. -/
theorem claim_c8_cell_stack {π : Type} (weightTied : Bool) (numLayers : ℕ)
    (coreParams lastParams : π) (dpIn dpOut lastIn lastOut : ℚ)
    (skip variational : Bool) (hl : 1 ≤ numLayers) :
    (buildFwdCells weightTied numLayers coreParams lastParams dpIn dpOut lastIn lastOut
        skip variational).length = numLayers ∧
    (∀ c ∈ (buildFwdCells weightTied numLayers coreParams lastParams dpIn dpOut lastIn
        lastOut skip variational).dropLast,
        c = ⟨coreParams, dpIn, dpOut, skip, variational⟩) ∧
    (buildFwdCells weightTied numLayers coreParams lastParams dpIn dpOut lastIn lastOut
        skip variational).getLast? =
      some ⟨(if weightTied then lastParams else coreParams), lastIn, lastOut, skip,
        variational⟩ := by
  unfold buildFwdCells
  refine ⟨?_, ?_, ?_⟩
  · simp only [List.length_append, List.length_map, List.length_range, List.length_singleton]
    omega
  · intro c hc
    rw [List.dropLast_concat] at hc
    simp only [List.mem_map, List.mem_range] at hc
    obtain ⟨a, _, h⟩ := hc
    exact h.symm
  · rw [List.getLast?_concat]
    simp [lastCellParams]

/-- Witness for C8 with three layers, weight tying on, and natural-number
parameter dicts. -/
theorem claim_c8_witness :
    (1 ≤ 3) ∧
      ((buildFwdCells true 3 (0 : ℕ) 1 (9/10) (4/5) (7/10) (3/5) true false).length = 3 ∧
        (∀ c ∈ (buildFwdCells true 3 (0 : ℕ) 1 (9/10) (4/5) (7/10) (3/5) true
            false).dropLast, c = ⟨0, 9/10, 4/5, true, false⟩) ∧
        (buildFwdCells true 3 (0 : ℕ) 1 (9/10) (4/5) (7/10) (3/5) true false).getLast? =
          some ⟨(if true then 1 else 0), 7/10, 3/5, true, false⟩) :=
  ⟨by decide, claim_c8_cell_stack true 3 0 1 (9/10) (4/5) (7/10) (3/5) true false (by decide)⟩

/-- Claim C3: requesting weight tying when emb_size differs from the width of
the hidden vector the output projection is applied to makes graph
construction fail: the layer is built at emb_size by the zero probe and the
decoder's application at hiddenDim then violates its input spec, a fatal
error raised at setup before any decode step executes. -/
theorem claim_c3_weight_tying_dim_mismatch (embSize hiddenDim : ℕ)
    (hne : embSize ≠ hiddenDim) :
    encodeOutputLayerTrace true embSize hiddenDim = Except.error () := by
  have h2 : hiddenDim ≠ embSize := Ne.symm hne
  simp [encodeOutputLayerTrace, denseCall, Except.bind, h2]

/-- Witness for C3 at emb_size 2 and hidden width 3. -/
theorem claim_c3_witness :
    (2 : ℕ) ≠ 3 ∧ encodeOutputLayerTrace true 2 3 = Except.error () :=
  ⟨by decide, claim_c3_weight_tying_dim_mismatch 2 3 (by decide)⟩

/-- Projection kernel used by the C2 counterexample (emb_size 1, vocab 2). -/
def c2Kernel : Fin 1 → Fin 2 → ℚ := fun _ j => if j = 0 then 1 else 0

/-- Embedding-dropout mask of the counterexample invocation: every entry is
dropped. -/
def c2Mask : Fin 2 → Fin 1 → Bool := fun _ _ => false

/-- Unused independent embedding table (weight tying is on). -/
def c2Indep : Fin 2 → Fin 1 → ℚ := fun _ _ => 0

/-- Configuration with embedding keep probability 1/2. -/
def c2Config : DropoutConfig := ⟨1, 1, 1, 1, 1/2⟩

/-- Counterexample to claim C2 as stated: in train mode with embedding keep
probability 1/2, the matrix actually used for lookups (self._enc_emb_w, the
dropout of the transposed kernel) differs from the transpose of the
projection kernel at entry (0,0): the entry is dropped to 0 while the kernel
entry is 1. -/
theorem claim_c2_counterexample :
    buildEncEmbW true c2Kernel c2Indep (effectiveKeepProbs Mode.train c2Config).emb c2Mask 0 0
      ≠ tiedEmbRaw c2Kernel 0 0 := by
  simp only [buildEncEmbW, dropoutMat, dropoutScalar, effectiveKeepProbs, c2Config,
    tiedEmbRaw, c2Kernel, c2Mask, if_true, if_pos rfl]
  norm_num

/-- Claim C2 as amended: under weight tying the raw embedding matrix is the
element-for-element transpose of the projection kernel and never an
independent parameter; the matrix used for lookups equals that transpose
whenever the effective embedding keep probability is 1, which holds in every
non-train mode and in train mode with the (default) configured keep
probability 1. -/
theorem claim_c2_amended {e v : ℕ} (mode : Mode) (c : DropoutConfig)
    (K : Fin e → Fin v → ℚ) (indep : Fin v → Fin e → ℚ)
    (mask : Fin v → Fin e → Bool) (h : mode ≠ Mode.train ∨ c.emb = 1) :
    ∀ i j, buildEncEmbW true K indep (effectiveKeepProbs mode c).emb mask i j = K j i := by
  intro i j
  have hemb : (effectiveKeepProbs mode c).emb = 1 := by
    rcases h with h | h
    · simp [effectiveKeepProbs, h]
    · by_cases ht : mode = Mode.train <;> simp [effectiveKeepProbs, ht, h]
  simp [buildEncEmbW, dropoutMat, dropoutScalar, hemb, tiedEmbRaw]

/-- Witness for the amended C2 in infer mode with the counterexample's kernel
and mask. -/
theorem claim_c2_witness :
    (Mode.infer ≠ Mode.train ∨ c2Config.emb = 1) ∧
      ∀ i j, buildEncEmbW true c2Kernel c2Indep (effectiveKeepProbs Mode.infer c2Config).emb
        c2Mask i j = c2Kernel j i :=
  ⟨Or.inl (by decide),
    claim_c2_amended Mode.infer c2Config c2Kernel c2Indep c2Mask (Or.inl (by decide))⟩

/-- Record emitted by one BasicDecoder.step: the projected per-element logits
(rnn_output after the output layer) and the helper's greedy sample ids. -/
structure StepRec (B v : ℕ) where
  logits : Fin B → Vec v
  sampleId : Fin B → ℕ

/-- Result of one decoder.step call: emitted record, next cell state, next
inputs chosen by the helper, and the helper's per-element finished flags. -/
structure StepRes (B v e : ℕ) (σ : Type) where
  out : StepRec B v
  nextState : Fin B → σ
  nextInputs : Fin B → Vec e
  decFin : Fin B → Bool

/-- Shape of decoder.step as consumed by dynamic_decode: time, current
inputs and current cell state in, StepRes out. -/
abbrev StepFun (B v e : ℕ) (σ : Type) := ℕ → (Fin B → Vec e) → (Fin B → σ) → StepRes B v e σ

/-- Result of dynamic_decode: stacked per-step records (the time dimension of
final_outputs), the final cell state, and final_sequence_lengths. -/
structure DecodeResult (B v : ℕ) (σ : Type) where
  outputs : List (StepRec B v)
  finalState : Fin B → σ
  finalSeqLens : Fin B → ℕ

/-- Conjunction over the batch, modelling tf.reduce_all; true on an empty
batch. -/
def allB {B : ℕ} (f : Fin B → Bool) : Bool := (List.finRange B).all f

/-- Greedy sample of tf.argmax over the last axis: the index of the largest
entry, the earliest such index on ties, and 0 on an empty vector. -/
def argmaxVec (n : ℕ) (f : Vec n) : ℕ :=
  match (List.finRange n).foldl
      (fun acc i =>
        match acc with
        | none => some i
        | some b => if f b < f i then some i else some b) none with
  | none => 0
  | some b => b.val

/-- Application of the Dense output layer (line 172-177): an affine map from
the hidden vector to vocabulary logits, with the bias present when
fc_use_bias. -/
def denseApply {hd v : ℕ} (K : Fin hd → Fin v → ℚ) (bias : Vec v) (useBias : Bool)
    (x : Vec hd) : Vec v :=
  fun j => (Finset.univ.sum fun i => x i * K i j) + (if useBias then bias j else 0)

/-- Lookup of one token id in the embedding table (tf.nn.embedding_lookup).
Every id the encoder actually looks up is in range (TF faults otherwise);
out-of-range ids map to the zero vector to keep the model total. -/
def embLookup {v e : ℕ} (W : Fin v → Fin e → ℚ) (tok : ℕ) : Vec e :=
  if hlt : tok < v then W ⟨tok, hlt⟩ else fun _ => 0

/-- Fuel-indexed while loop of tf.contrib.seq2seq.dynamic_decode
(condition and body of decoder.py): the loop runs while some batch element
is unfinished; each body performs decoder.step, accumulates finished flags
(also forcing them once time + 1 reaches maximum_iterations), tracks
sequence lengths, and either emits the raw step record and raw next state
(impute_finished = false, the production path at line 287) or zeroes the
record and freezes the state of already-finished elements
(impute_finished = true).  Since finished flags are forced at
maximum_iterations, fuel = maximum_iterations makes the function agree with
the unbounded while loop. -/
def ddLoop {B v e : ℕ} {σ : Type} (step : StepFun B v e σ) (impute : Bool) (maxIter : ℕ) :
    ℕ → ℕ → (Fin B → Vec e) → (Fin B → σ) → (Fin B → Bool) → (Fin B → ℕ) →
      List (StepRec B v) → DecodeResult B v σ
  | 0, _, _, state, _, seqLens, acc => ⟨acc.reverse, state, seqLens⟩
  | fuel + 1, time, inputs, state, finished, seqLens, acc =>
    if allB finished then ⟨acc.reverse, state, seqLens⟩
    else
      ddLoop step impute maxIter fuel (time + 1)
        (step time inputs state).nextInputs
        (if impute then
          (fun b => if finished b then state b else (step time inputs state).nextState b)
        else (step time inputs state).nextState)
        (fun b => ((step time inputs state).decFin b || finished b)
          || decide (maxIter ≤ time + 1))
        (fun b =>
          if !finished b && (((step time inputs state).decFin b || finished b)
              || decide (maxIter ≤ time + 1)) then time + 1 else seqLens b)
        ((if impute then
            StepRec.mk
              (fun b => if finished b then (fun _ => 0) else (step time inputs state).out.logits b)
              (fun b => if finished b then 0 else (step time inputs state).out.sampleId b)
          else (step time inputs state).out) :: acc)

/-- Entry point of dynamic_decode: start at time 0 from the decoder's
initialize() triple, with the initial finished flags also forced when
0 >= maximum_iterations. -/
def dynamicDecode {B v e : ℕ} {σ : Type} (step : StepFun B v e σ) (impute : Bool)
    (maxIter : ℕ) (init : (Fin B → Bool) × (Fin B → Vec e) × (Fin B → σ)) :
    DecodeResult B v σ :=
  ddLoop step impute maxIter maxIter 0 init.2.1 init.2.2
    (fun b => init.1 b || decide (maxIter ≤ 0)) (fun _ => 0) []

/-- Ingredients of the infer-mode decode, lines 264-283: the composed cell
stack step function applied per batch element, its zero state, the output
projection, the embedding function (a lookup into self._enc_emb_w), the
seed tokens and the end token. -/
structure GreedySetup (e hd v B : ℕ) (σ : Type) where
  cellStep : σ → Vec e → σ × Vec hd
  s0 : Fin B → σ
  K : Fin hd → Fin v → ℚ
  bias : Vec v
  useBias : Bool
  emb : ℕ → Vec e
  seeds : Fin B → ℕ
  endToken : ℕ

/-- One BasicDecoder.step under a GreedyEmbeddingHelper: run the cell, apply
the output layer, sample the argmax, finish the elements whose sample equals
end_token, and feed the embedded samples back as the next inputs (the helper
returns the start inputs when every element just sampled end_token, in which
case the loop exits anyway). -/
def greedyStep {e hd v B : ℕ} {σ : Type} (S : GreedySetup e hd v B σ) : StepFun B v e σ :=
  fun _time inputs state =>
    ⟨⟨fun b => denseApply S.K S.bias S.useBias (S.cellStep (state b) (inputs b)).2,
      fun b => argmaxVec v (denseApply S.K S.bias S.useBias (S.cellStep (state b) (inputs b)).2)⟩,
     fun b => (S.cellStep (state b) (inputs b)).1,
     (if allB (fun b => decide (argmaxVec v (denseApply S.K S.bias S.useBias
          (S.cellStep (state b) (inputs b)).2) = S.endToken))
      then (fun b => S.emb (S.seeds b))
      else fun b => S.emb (argmaxVec v (denseApply S.K S.bias S.useBias
          (S.cellStep (state b) (inputs b)).2))),
     fun b => decide (argmaxVec v (denseApply S.K S.bias S.useBias
          (S.cellStep (state b) (inputs b)).2) = S.endToken)⟩

/-- GreedyEmbeddingHelper.initialize: no element finished, first inputs are
the embedded seed tokens, state is the cell stack's zero state. -/
def greedyInit {e hd v B : ℕ} {σ : Type} (S : GreedySetup e hd v B σ) :
    (Fin B → Bool) × (Fin B → Vec e) × (Fin B → σ) :=
  (fun _ => false, fun b => S.emb (S.seeds b), S.s0)

/-- Maximum iterations of the infer-mode decode, line 283: the hard-coded
constant tf.constant(200).  The configured num_tokens_gen (stored by
__init__) is not consulted here. -/
def inferMaximumIterations : ℕ := 200

/-- Resolution of num_tokens_gen by AWDLSTMEncoder.__init__ (lines 91-95):
in infer mode the configured value with default 1, otherwise 1. -/
def numTokensGenInit (mode : Mode) (numTokensGenParam : Option ℕ) : ℕ :=
  if mode = Mode.infer then numTokensGenParam.getD 1 else 1

/-- Infer-mode decode (lines 264-291): BasicDecoder over a
GreedyEmbeddingHelper run by dynamic_decode with impute_finished = false and
maximum_iterations = 200.  The numTokensGen argument is accepted only to
document that the decode ignores it, exactly as the source does. -/
def encodeInfer {e hd v B : ℕ} {σ : Type} (S : GreedySetup e hd v B σ)
    (numTokensGen : ℕ) : DecodeResult B v σ :=
  dynamicDecode (greedyStep S) false inferMaximumIterations (greedyInit S)

/-- Ingredients of the train/eval decode, lines 230-262: cell stack step and
zero state, output projection, the (already dropout-processed) embedding
table self._enc_emb_w, the ground-truth token sequence and the per-element
source lengths. -/
structure TrainSetup (e hd v B : ℕ) (σ : Type) where
  cellStep : σ → Vec e → σ × Vec hd
  s0 : Fin B → σ
  K : Fin hd → Fin v → ℚ
  bias : Vec v
  useBias : Bool
  embW : Fin v → Fin e → ℚ
  sourceSeq : ℕ → Fin B → ℕ
  seqLen : Fin B → ℕ

/-- Embedded ground-truth inputs (line 231): embedding_lookup of the source
sequence in the table. -/
def TrainSetup.inputsSeq {e hd v B : ℕ} {σ : Type} (T : TrainSetup e hd v B σ)
    (t : ℕ) : Fin B → Vec e :=
  fun b => embLookup T.embW (T.sourceSeq t b)

/-- One BasicDecoder.step under a TrainingHelper: run the cell, apply the
output layer, sample the argmax; an element is finished once time + 1
reaches its own sequence length; the next inputs are the next embedded
ground-truth slice (zeros once every element is finished, in which case the
loop exits anyway). -/
def trainingStep {e hd v B : ℕ} {σ : Type} (T : TrainSetup e hd v B σ) : StepFun B v e σ :=
  fun time inputs state =>
    ⟨⟨fun b => denseApply T.K T.bias T.useBias (T.cellStep (state b) (inputs b)).2,
      fun b => argmaxVec v (denseApply T.K T.bias T.useBias (T.cellStep (state b) (inputs b)).2)⟩,
     fun b => (T.cellStep (state b) (inputs b)).1,
     (if allB (fun b => decide (T.seqLen b ≤ time + 1)) then (fun _ _ => 0)
      else T.inputsSeq (time + 1)),
     fun b => decide (T.seqLen b ≤ time + 1)⟩

/-- TrainingHelper.initialize: an element starts finished iff its sequence
length is 0; first inputs are the time-0 ground-truth slice (zeros when
everything is already finished); state is the cell stack's zero state. -/
def trainingInit {e hd v B : ℕ} {σ : Type} (T : TrainSetup e hd v B σ) :
    (Fin B → Bool) × (Fin B → Vec e) × (Fin B → σ) :=
  (fun b => decide (T.seqLen b = 0),
   (if allB (fun b => decide (T.seqLen b = 0)) then (fun _ _ => 0) else T.inputsSeq 0),
   T.s0)

/-- Fold computing the maximum of f over a list. -/
def listMax {α : Type} (f : α → ℕ) (l : List α) : ℕ :=
  l.foldr (fun b m => max (f b) m) 0

/-- Maximum over the batch, modelling tf.reduce_max(source_length),
line 262. -/
def batchMax {B : ℕ} (f : Fin B → ℕ) : ℕ := listMax f (List.finRange B)

/-- Train/eval decode (lines 230-262 and 285-291): BasicDecoder over a
TrainingHelper run by dynamic_decode with impute_finished = false and
maximum_iterations = max over the batch of source_length. -/
def encodeTrainEval {e hd v B : ℕ} {σ : Type} (T : TrainSetup e hd v B σ) :
    DecodeResult B v σ :=
  dynamicDecode (trainingStep T) false (batchMax T.seqLen) (trainingInit T)

/-- Teacher-forced reference recurrence: the cell state before step t when
every element consumes its embedded ground-truth token at every step,
with no element ever frozen. -/
def teState {e hd v B : ℕ} {σ : Type} (T : TrainSetup e hd v B σ) : ℕ → Fin B → σ
  | 0 => T.s0
  | t + 1 => fun b => (T.cellStep (teState T t b) (T.inputsSeq t b)).1

/-- Logits the reference recurrence emits at step t. -/
def teLogits {e hd v B : ℕ} {σ : Type} (T : TrainSetup e hd v B σ) (t : ℕ) :
    Fin B → Vec v :=
  fun b => denseApply T.K T.bias T.useBias (T.cellStep (teState T t b) (T.inputsSeq t b)).2

/-- Step record the reference recurrence emits at step t. -/
def teRec {e hd v B : ℕ} {σ : Type} (T : TrainSetup e hd v B σ) (t : ℕ) : StepRec B v :=
  ⟨teLogits T t, fun b => argmaxVec v (teLogits T t b)⟩

/-- Greedy feedback reference recurrence: state before step t and input
consumed at step t when every element feeds its own previous argmax back,
with no element ever frozen.  Step 0 consumes the embedded seed token. -/
def gTrace {e hd v B : ℕ} {σ : Type} (S : GreedySetup e hd v B σ) :
    ℕ → ((Fin B → σ) × (Fin B → Vec e))
  | 0 => (S.s0, fun b => S.emb (S.seeds b))
  | t + 1 =>
    ((fun b => (S.cellStep ((gTrace S t).1 b) ((gTrace S t).2 b)).1),
     (fun b => S.emb (argmaxVec v (denseApply S.K S.bias S.useBias
        (S.cellStep ((gTrace S t).1 b) ((gTrace S t).2 b)).2))))

/-- State component of the greedy reference. -/
def gState {e hd v B : ℕ} {σ : Type} (S : GreedySetup e hd v B σ) (t : ℕ) : Fin B → σ :=
  (gTrace S t).1

/-- Input component of the greedy reference. -/
def gInp {e hd v B : ℕ} {σ : Type} (S : GreedySetup e hd v B σ) (t : ℕ) : Fin B → Vec e :=
  (gTrace S t).2

/-- Logits the greedy reference emits at step t. -/
def gLogits {e hd v B : ℕ} {σ : Type} (S : GreedySetup e hd v B σ) (t : ℕ) :
    Fin B → Vec v :=
  fun b => denseApply S.K S.bias S.useBias (S.cellStep (gState S t b) (gInp S t b)).2

/-- Step record the greedy reference emits at step t. -/
def gRec {e hd v B : ℕ} {σ : Type} (S : GreedySetup e hd v B σ) (t : ℕ) : StepRec B v :=
  ⟨gLogits S t, fun b => argmaxVec v (gLogits S t b)⟩

/-- Characterization of the batchwise conjunction. -/
lemma allB_eq_true_iff {B : ℕ} (f : Fin B → Bool) : allB f = true ↔ ∀ b, f b = true := by
  simp [allB, List.all_eq_true, List.mem_finRange]

/-- Weakening a batchwise conjunction by disjuncts on the right. -/
lemma allB_or_left {B : ℕ} (f g : Fin B → Bool) (h : allB f = true) :
    allB (fun b => f b || g b) = true := by
  rw [allB_eq_true_iff] at h ⊢
  intro b
  rw [h b]
  rfl

/-- Bounding the fold computing a list maximum. -/
lemma listMax_le_iff {α : Type} (f : α → ℕ) (l : List α) (t : ℕ) :
    listMax f l ≤ t ↔ ∀ b ∈ l, f b ≤ t := by
  induction l with
  | nil => simp [listMax]
  | cons a l ih =>
    rw [List.forall_mem_cons, ← ih]
    simp [listMax, Nat.max_le]

/-- Every element's value is bounded by the batch maximum. -/
lemma le_batchMax {B : ℕ} (f : Fin B → ℕ) (b : Fin B) : f b ≤ batchMax f :=
  ((listMax_le_iff f (List.finRange B) (batchMax f)).1 le_rfl) b (List.mem_finRange b)

/-- The batch maximum is below a bound iff every element is. -/
lemma batchMax_le_iff {B : ℕ} (f : Fin B → ℕ) (t : ℕ) :
    batchMax f ≤ t ↔ ∀ b, f b ≤ t := by
  rw [batchMax, listMax_le_iff]
  simp [List.mem_finRange]

/-- Unfolding ddLoop when every element is already finished: the loop exits
immediately. -/
lemma ddLoop_fin {B v e : ℕ} {σ : Type} (step : StepFun B v e σ) (impute : Bool)
    (maxIter fuel time : ℕ) (inputs : Fin B → Vec e) (state : Fin B → σ)
    (finished : Fin B → Bool) (seqLens : Fin B → ℕ) (acc : List (StepRec B v))
    (hfin : allB finished = true) :
    ddLoop step impute maxIter (fuel + 1) time inputs state finished seqLens acc =
      ⟨acc.reverse, state, seqLens⟩ := by
  simp only [ddLoop]
  rw [if_pos hfin]

/-- Unfolding one alive iteration of ddLoop with impute_finished = false: the
raw step record is emitted, the raw next state is adopted for every element,
and the finished flags accumulate (forced at maximum_iterations). -/
lemma ddLoop_succ_noimpute {B v e : ℕ} {σ : Type} (step : StepFun B v e σ)
    (maxIter fuel time : ℕ) (inputs : Fin B → Vec e) (state : Fin B → σ)
    (finished : Fin B → Bool) (seqLens : Fin B → ℕ) (acc : List (StepRec B v))
    (hfin : ¬ allB finished = true) :
    ddLoop step false maxIter (fuel + 1) time inputs state finished seqLens acc =
      ddLoop step false maxIter fuel (time + 1) (step time inputs state).nextInputs
        (step time inputs state).nextState
        (fun b => ((step time inputs state).decFin b || finished b)
          || decide (maxIter ≤ time + 1))
        (fun b => if !finished b && (((step time inputs state).decFin b || finished b)
            || decide (maxIter ≤ time + 1)) then time + 1 else seqLens b)
        ((step time inputs state).out :: acc) := by
  simp only [ddLoop]
  rw [if_neg hfin]
  rfl

/-- Trace lemma for dynamic_decode with impute_finished = false: if the step
function agrees with a reference trajectory (reference states, inputs and
emitted records), and the loop is entered on the reference trajectory, then
every emitted record is the reference record of its step and the final state
is the reference state after as many steps as were emitted.  The invariant
on inputs is disjunctive because the helpers return placeholder inputs
exactly when every element has just finished, in which case the loop exits
without consuming them. -/
lemma ddLoop_trace {B v e : ℕ} {σ : Type} (step : StepFun B v e σ) (maxIter : ℕ)
    (refSt : ℕ → Fin B → σ) (refInp : ℕ → Fin B → Vec e) (refRec : ℕ → StepRec B v)
    (hstep : ∀ t, (step t (refInp t) (refSt t)).out = refRec t ∧
      (step t (refInp t) (refSt t)).nextState = refSt (t + 1) ∧
      (allB (step t (refInp t) (refSt t)).decFin = true ∨
        (step t (refInp t) (refSt t)).nextInputs = refInp (t + 1))) :
    ∀ (fuel time : ℕ) (inputs : Fin B → Vec e) (state : Fin B → σ)
      (finished : Fin B → Bool) (seqLens : Fin B → ℕ) (acc : List (StepRec B v)),
      state = refSt time → (allB finished = true ∨ inputs = refInp time) →
      ∃ n,
        (ddLoop step false maxIter fuel time inputs state finished seqLens acc).outputs =
          acc.reverse ++ (List.range n).map (fun i => refRec (time + i)) ∧
        (ddLoop step false maxIter fuel time inputs state finished seqLens acc).finalState =
          refSt (time + n) := by
  intro fuel
  induction fuel with
  | zero =>
    intro time inputs state finished seqLens acc hst _
    exact ⟨0, by simp [ddLoop], by simp [ddLoop, hst]⟩
  | succ fuel ih =>
    intro time inputs state finished seqLens acc hst hinv
    by_cases hfin : allB finished = true
    · exact ⟨0, by rw [ddLoop_fin step false maxIter fuel time inputs state finished
          seqLens acc hfin]; simp,
        by rw [ddLoop_fin step false maxIter fuel time inputs state finished
          seqLens acc hfin]; simp [hst]⟩
    · have hinp : inputs = refInp time := by
        rcases hinv with h | h
        · exact absurd h hfin
        · exact h
      subst hst
      subst hinp
      obtain ⟨ho, hns, hni⟩ := hstep time
      rw [ddLoop_succ_noimpute step maxIter fuel time (refInp time) (refSt time)
        finished seqLens acc hfin]
      have hinv' :
          allB (fun b => ((step time (refInp time) (refSt time)).decFin b || finished b)
            || decide (maxIter ≤ time + 1)) = true ∨
          (step time (refInp time) (refSt time)).nextInputs = refInp (time + 1) := by
        rcases hni with h | h
        · left
          exact allB_or_left _ _ (allB_or_left _ _ h)
        · right
          exact h
      obtain ⟨n, h1, h2⟩ := ih (time + 1)
        (step time (refInp time) (refSt time)).nextInputs
        (step time (refInp time) (refSt time)).nextState
        (fun b => ((step time (refInp time) (refSt time)).decFin b || finished b)
          || decide (maxIter ≤ time + 1))
        (fun b => if !finished b && (((step time (refInp time) (refSt time)).decFin b
            || finished b) || decide (maxIter ≤ time + 1)) then time + 1 else seqLens b)
        ((step time (refInp time) (refSt time)).out :: acc)
        hns hinv'
      refine ⟨n + 1, ?_, ?_⟩
      · rw [h1, ho, List.reverse_cons, List.range_succ_eq_map]
        simp only [List.map_cons, List.map_map, Nat.add_zero, List.append_assoc,
          List.singleton_append]
        congr 1
        congr 1
        apply List.map_congr_left
        intro a _
        simp only [Function.comp]
        congr 1
        omega
      · rw [h2]
        exact congrArg refSt (by omega)

/-- Length of the train/eval decode loop: as long as the incoming finished
flags say exactly which elements' lengths are exhausted, the loop emits one
record per remaining step up to the batch maximum of the source lengths
(which is also the maximum_iterations bound, line 262). -/
lemma ddLoop_train_len {e hd v B : ℕ} {σ : Type} (T : TrainSetup e hd v B σ) :
    ∀ (fuel time : ℕ) (inputs : Fin B → Vec e) (state : Fin B → σ)
      (finished : Fin B → Bool) (seqLens : Fin B → ℕ) (acc : List (StepRec B v)),
      (∀ b, finished b = decide (T.seqLen b ≤ time)) →
      batchMax T.seqLen ≤ time + fuel →
      ((ddLoop (trainingStep T) false (batchMax T.seqLen) fuel time inputs state finished
          seqLens acc).outputs).length = acc.length + (batchMax T.seqLen - time) := by
  intro fuel
  induction fuel with
  | zero =>
    intro time inputs state finished seqLens acc hf hle
    have h0 : batchMax T.seqLen - time = 0 := by omega
    simp [ddLoop, h0]
  | succ fuel ih =>
    intro time inputs state finished seqLens acc hf hle
    by_cases hfin : allB finished = true
    · have hall : ∀ b, T.seqLen b ≤ time := by
        intro b
        have hb := (allB_eq_true_iff finished).1 hfin b
        rw [hf b] at hb
        exact of_decide_eq_true hb
      have hM : batchMax T.seqLen ≤ time := (batchMax_le_iff T.seqLen time).2 hall
      have h0 : batchMax T.seqLen - time = 0 := by omega
      rw [ddLoop_fin (trainingStep T) false (batchMax T.seqLen) fuel time inputs state
        finished seqLens acc hfin]
      simp [h0]
    · have hMt : ¬ batchMax T.seqLen ≤ time := by
        intro hM
        apply hfin
        rw [allB_eq_true_iff]
        intro b
        rw [hf b]
        exact decide_eq_true ((batchMax_le_iff T.seqLen time).1 hM b)
      rw [ddLoop_succ_noimpute (trainingStep T) (batchMax T.seqLen) fuel time inputs state
        finished seqLens acc hfin]
      have hf' : ∀ b,
          (((trainingStep T time inputs state).decFin b || finished b)
            || decide (batchMax T.seqLen ≤ time + 1)) = decide (T.seqLen b ≤ time + 1) := by
        intro b
        have h1 : (trainingStep T time inputs state).decFin b
            = decide (T.seqLen b ≤ time + 1) := rfl
        rw [h1, hf b]
        by_cases hA : T.seqLen b ≤ time + 1
        · simp [hA]
        · have hB : ¬ T.seqLen b ≤ time := by omega
          have hC : ¬ batchMax T.seqLen ≤ time + 1 := by
            intro hC
            exact hA (le_trans (le_batchMax T.seqLen b) hC)
          simp [hA, hB, hC]
      have hrec := ih (time + 1)
        (trainingStep T time inputs state).nextInputs
        (trainingStep T time inputs state).nextState
        (fun b => ((trainingStep T time inputs state).decFin b || finished b)
          || decide (batchMax T.seqLen ≤ time + 1))
        (fun b => if !finished b && (((trainingStep T time inputs state).decFin b
            || finished b) || decide (batchMax T.seqLen ≤ time + 1)) then time + 1
          else seqLens b)
        ((trainingStep T time inputs state).out :: acc)
        hf' (by omega)
      rw [hrec]
      simp only [List.length_cons]
      omega

/-- Length of a decode loop whose step never finishes any element: the loop
runs until the maximum_iterations forcing stops it, emitting exactly
maxIter - time further records. -/
lemma ddLoop_never_fin_len {B v e : ℕ} {σ : Type} (step : StepFun B v e σ) (maxIter : ℕ)
    (hB : 1 ≤ B)
    (hdec : ∀ t inputs state b, (step t inputs state).decFin b = false) :
    ∀ (fuel time : ℕ) (inputs : Fin B → Vec e) (state : Fin B → σ)
      (finished : Fin B → Bool) (seqLens : Fin B → ℕ) (acc : List (StepRec B v)),
      (∀ b, finished b = decide (maxIter ≤ time)) →
      maxIter ≤ time + fuel →
      ((ddLoop step false maxIter fuel time inputs state finished seqLens acc).outputs).length
        = acc.length + (maxIter - time) := by
  intro fuel
  induction fuel with
  | zero =>
    intro time inputs state finished seqLens acc hf hle
    have h0 : maxIter - time = 0 := by omega
    simp [ddLoop, h0]
  | succ fuel ih =>
    intro time inputs state finished seqLens acc hf hle
    by_cases hfin : allB finished = true
    · have hM : maxIter ≤ time := by
        have hb := (allB_eq_true_iff finished).1 hfin ⟨0, hB⟩
        rw [hf ⟨0, hB⟩] at hb
        exact of_decide_eq_true hb
      have h0 : maxIter - time = 0 := by omega
      rw [ddLoop_fin step false maxIter fuel time inputs state finished seqLens acc hfin]
      simp [h0]
    · have hMt : ¬ maxIter ≤ time := by
        intro hM
        apply hfin
        rw [allB_eq_true_iff]
        intro b
        rw [hf b]
        exact decide_eq_true hM
      rw [ddLoop_succ_noimpute step maxIter fuel time inputs state finished seqLens acc hfin]
      have hf' : ∀ b,
          (((step time inputs state).decFin b || finished b) || decide (maxIter ≤ time + 1))
            = decide (maxIter ≤ time + 1) := by
        intro b
        rw [hdec time inputs state b, hf b]
        simp [hMt]
      have hrec := ih (time + 1)
        (step time inputs state).nextInputs
        (step time inputs state).nextState
        (fun b => ((step time inputs state).decFin b || finished b)
          || decide (maxIter ≤ time + 1))
        (fun b => if !finished b && (((step time inputs state).decFin b || finished b)
            || decide (maxIter ≤ time + 1)) then time + 1 else seqLens b)
        ((step time inputs state).out :: acc)
        hf' (by omega)
      rw [hrec]
      simp only [List.length_cons]
      omega

/-- Coherence of the greedy decoder step with the greedy feedback reference:
on the reference trajectory the emitted record is the reference record, the
next state is the reference next state (every element stepped), and the next
inputs are the reference next inputs unless every element just sampled
end_token. -/
lemma greedyStep_coherent {e hd v B : ℕ} {σ : Type} (S : GreedySetup e hd v B σ) (t : ℕ) :
    (greedyStep S t (gInp S t) (gState S t)).out = gRec S t ∧
    (greedyStep S t (gInp S t) (gState S t)).nextState = gState S (t + 1) ∧
    (allB (greedyStep S t (gInp S t) (gState S t)).decFin = true ∨
      (greedyStep S t (gInp S t) (gState S t)).nextInputs = gInp S (t + 1)) := by
  refine ⟨rfl, rfl, ?_⟩
  by_cases hc : allB (fun b => decide (argmaxVec v (denseApply S.K S.bias S.useBias
      (S.cellStep (gState S t b) (gInp S t b)).2) = S.endToken)) = true
  · left
    exact hc
  · right
    show (if allB (fun b => decide (argmaxVec v (denseApply S.K S.bias S.useBias
        (S.cellStep (gState S t b) (gInp S t b)).2) = S.endToken))
      then (fun b => S.emb (S.seeds b))
      else fun b => S.emb (argmaxVec v (denseApply S.K S.bias S.useBias
        (S.cellStep (gState S t b) (gInp S t b)).2))) = gInp S (t + 1)
    rw [if_neg hc]
    rfl

/-- Coherence of the training decoder step with the teacher-forced reference:
the emitted record is the reference record, the next state is the reference
next state (every element stepped, beyond its own length too), and the next
inputs are the next ground-truth slice unless every element's length is
exhausted. -/
lemma trainingStep_coherent {e hd v B : ℕ} {σ : Type} (T : TrainSetup e hd v B σ) (t : ℕ) :
    (trainingStep T t (T.inputsSeq t) (teState T t)).out = teRec T t ∧
    (trainingStep T t (T.inputsSeq t) (teState T t)).nextState = teState T (t + 1) ∧
    (allB (trainingStep T t (T.inputsSeq t) (teState T t)).decFin = true ∨
      (trainingStep T t (T.inputsSeq t) (teState T t)).nextInputs = T.inputsSeq (t + 1)) := by
  refine ⟨rfl, rfl, ?_⟩
  by_cases hc : allB (fun b => decide (T.seqLen b ≤ t + 1)) = true
  · left
    exact hc
  · right
    show (if allB (fun b => decide (T.seqLen b ≤ t + 1)) then (fun _ _ => 0)
      else T.inputsSeq (t + 1)) = T.inputsSeq (t + 1)
    rw [if_neg hc]

/-- Full characterization of the train/eval decode: the loop performs exactly
batchMax seqLen iterations and the emitted records are the teacher-forced
reference records; the final state is the reference state in which every
element was stepped that many times. -/
lemma encodeTrainEval_spec {e hd v B : ℕ} {σ : Type} (T : TrainSetup e hd v B σ) :
    (encodeTrainEval T).outputs = (List.range (batchMax T.seqLen)).map (teRec T) ∧
    (encodeTrainEval T).finalState = teState T (batchMax T.seqLen) := by
  have hEq : encodeTrainEval T = ddLoop (trainingStep T) false (batchMax T.seqLen)
      (batchMax T.seqLen) 0 (trainingInit T).2.1 (trainingInit T).2.2
      (fun b => (trainingInit T).1 b || decide (batchMax T.seqLen ≤ 0))
      (fun _ => 0) [] := rfl
  have hinv : allB (fun b => (trainingInit T).1 b || decide (batchMax T.seqLen ≤ 0)) = true
      ∨ (trainingInit T).2.1 = T.inputsSeq 0 := by
    by_cases hz : allB (fun b => decide (T.seqLen b = 0)) = true
    · left
      exact allB_or_left _ _ hz
    · right
      show (if allB (fun b => decide (T.seqLen b = 0)) then (fun _ _ => 0)
        else T.inputsSeq 0) = T.inputsSeq 0
      rw [if_neg hz]
  obtain ⟨n, h1, h2⟩ := ddLoop_trace (trainingStep T) (batchMax T.seqLen)
      (teState T) (T.inputsSeq) (teRec T) (trainingStep_coherent T)
      (batchMax T.seqLen) 0 (trainingInit T).2.1 (trainingInit T).2.2
      (fun b => (trainingInit T).1 b || decide (batchMax T.seqLen ≤ 0))
      (fun _ => 0) [] rfl hinv
  have hf0 : ∀ b, ((trainingInit T).1 b || decide (batchMax T.seqLen ≤ 0))
      = decide (T.seqLen b ≤ 0) := by
    intro b
    have hd0 : (trainingInit T).1 b = decide (T.seqLen b = 0) := rfl
    rw [hd0]
    by_cases hb : T.seqLen b = 0
    · simp [hb]
    · have h1' : ¬ T.seqLen b ≤ 0 := by omega
      have h2' : ¬ batchMax T.seqLen ≤ 0 := by
        intro hM
        exact hb (Nat.le_antisymm (le_trans (le_batchMax T.seqLen b) hM) (Nat.zero_le _))
      simp [hb, h1', h2']
  have hlen := ddLoop_train_len T (batchMax T.seqLen) 0 (trainingInit T).2.1
      (trainingInit T).2.2 (fun b => (trainingInit T).1 b || decide (batchMax T.seqLen ≤ 0))
      (fun _ => 0) [] hf0 (by omega)
  have hn : n = batchMax T.seqLen := by
    rw [h1] at hlen
    simpa using hlen
  subst hn
  constructor
  · rw [hEq, h1]
    simp only [List.reverse_nil, List.nil_append]
    apply List.map_congr_left
    intro a _
    rw [Nat.zero_add]
  · rw [hEq, h2]
    exact congrArg (teState T) (Nat.zero_add _)

/-- Full characterization of the infer decode: for some number of performed
iterations, the emitted records are exactly the greedy feedback reference
records and the final state is the reference state after that many steps —
with every element stepped at every iteration, finished or not. -/
lemma encodeInfer_spec {e hd v B : ℕ} {σ : Type} (S : GreedySetup e hd v B σ)
    (numTokensGen : ℕ) :
    ∃ m, (encodeInfer S numTokensGen).outputs = (List.range m).map (gRec S) ∧
      (encodeInfer S numTokensGen).finalState = gState S m := by
  have hEq : encodeInfer S numTokensGen = ddLoop (greedyStep S) false
      inferMaximumIterations inferMaximumIterations 0 (greedyInit S).2.1
      (greedyInit S).2.2
      (fun b => (greedyInit S).1 b || decide (inferMaximumIterations ≤ 0))
      (fun _ => 0) [] := rfl
  obtain ⟨m, h1, h2⟩ := ddLoop_trace (greedyStep S) inferMaximumIterations
      (gState S) (gInp S) (gRec S) (greedyStep_coherent S)
      inferMaximumIterations 0 (greedyInit S).2.1 (greedyInit S).2.2
      (fun b => (greedyInit S).1 b || decide (inferMaximumIterations ≤ 0))
      (fun _ => 0) [] rfl (Or.inr rfl)
  refine ⟨m, ?_, ?_⟩
  · rw [hEq, h1]
    simp only [List.reverse_nil, List.nil_append]
    apply List.map_congr_left
    intro a _
    rw [Nat.zero_add]
  · rw [hEq, h2]
    exact congrArg (gState S) (Nat.zero_add _)

/-- Claim C4: in train/eval mode the decode loop runs for exactly the batch
maximum of the source lengths many iterations; at every one of those steps
every batch element is stepped (its emitted record is the teacher-forced
reference record of that step, also beyond the element's own length), and
the final state is the reference state after that common bound. -/
theorem claim_c4_train_runs_to_batch_max {e hd v B : ℕ} {σ : Type}
    (T : TrainSetup e hd v B σ) :
    (encodeTrainEval T).outputs = (List.range (batchMax T.seqLen)).map (teRec T) ∧
    (encodeTrainEval T).finalState = teState T (batchMax T.seqLen) :=
  encodeTrainEval_spec T

/-- Claim C5: the infer decode never impute-finishes: its emitted records and
final state coincide with the greedy feedback reference, in which every
element — already finished or not — is stepped at every performed iteration
and keeps emitting records. -/
theorem claim_c5_no_impute_finished {e hd v B : ℕ} {σ : Type}
    (S : GreedySetup e hd v B σ) (numTokensGen : ℕ) :
    (encodeInfer S numTokensGen).outputs =
      (List.range ((encodeInfer S numTokensGen).outputs.length)).map (gRec S) ∧
    (encodeInfer S numTokensGen).finalState =
      gState S ((encodeInfer S numTokensGen).outputs.length) := by
  obtain ⟨m, h1, h2⟩ := encodeInfer_spec S numTokensGen
  have hm : (encodeInfer S numTokensGen).outputs.length = m := by
    rw [h1]
    simp
  rw [hm, h1, h2]
  exact ⟨rfl, rfl⟩

/-- Every record the infer decode emits is the greedy reference record of its
step. -/
lemma encodeInfer_getElem {e hd v B : ℕ} {σ : Type} (S : GreedySetup e hd v B σ)
    (numTokensGen : ℕ) (t : ℕ) (r : StepRec B v)
    (hr : (encodeInfer S numTokensGen).outputs[t]? = some r) : r = gRec S t := by
  obtain ⟨m, h1, _⟩ := encodeInfer_spec S numTokensGen
  rw [h1, List.getElem?_map] at hr
  by_cases ht : t < m
  · rw [List.getElem?_range ht] at hr
    simpa using hr.symm
  · have hnone : (List.range m)[t]? = none := by
      rw [List.getElem?_eq_none]
      simpa using ht
    rw [hnone] at hr
    simp at hr

/-- Claim C6: in infer mode the first step consumes the embedded seed token
of each batch element, every later step consumes the embedding of the argmax
token the model itself emitted at the previous step, and each emitted
sample id is the argmax of that step's logits. -/
theorem claim_c6_greedy_feedback_inputs {e hd v B : ℕ} {σ : Type}
    (S : GreedySetup e hd v B σ) (numTokensGen : ℕ) :
    (∀ (r0 : StepRec B v), (encodeInfer S numTokensGen).outputs[0]? = some r0 →
      r0.logits = fun b => denseApply S.K S.bias S.useBias
        (S.cellStep (S.s0 b) (S.emb (S.seeds b))).2) ∧
    (∀ (t : ℕ) (rt rs : StepRec B v), (encodeInfer S numTokensGen).outputs[t]? = some rt →
      (encodeInfer S numTokensGen).outputs[t + 1]? = some rs →
      rs.logits = fun b => denseApply S.K S.bias S.useBias
        (S.cellStep (gState S (t + 1) b) (S.emb (rt.sampleId b))).2) ∧
    (∀ (t : ℕ) (r : StepRec B v), (encodeInfer S numTokensGen).outputs[t]? = some r →
      r.sampleId = fun b => argmaxVec v (r.logits b)) := by
  refine ⟨?_, ?_, ?_⟩
  · intro r0 h
    rw [encodeInfer_getElem S numTokensGen 0 r0 h]
    rfl
  · intro t rt rs hrt hrs
    rw [encodeInfer_getElem S numTokensGen t rt hrt,
      encodeInfer_getElem S numTokensGen (t + 1) rs hrs]
    rfl
  · intro t r h
    rw [encodeInfer_getElem S numTokensGen t r h]
    rfl

/-- Concrete setup for the C6 witness: pass-through cell, seed token 0 whose
argmax equals the end token, so the run performs exactly one step. -/
def c6Setup : GreedySetup 1 1 2 1 Unit :=
  ⟨fun _ x => ((), x), fun _ => (), fun _ j => if j = 0 then 1 else 0,
   fun _ => 0, true, fun tok => fun _ => if tok = 0 then 1 else 0, fun _ => 0, 0⟩

/-- Witness for C6: on the concrete run the step-0 record exists and its
logits are computed from the embedded seed token. -/
theorem claim_c6_witness :
    (encodeInfer c6Setup 1).outputs[0]? = some (gRec c6Setup 0) ∧
      (gRec c6Setup 0).logits = fun b => denseApply c6Setup.K c6Setup.bias c6Setup.useBias
        (c6Setup.cellStep (c6Setup.s0 b) (c6Setup.emb (c6Setup.seeds b))).2 :=
  ⟨by with_unfolding_all rfl,
    (claim_c6_greedy_feedback_inputs c6Setup 1).1 (gRec c6Setup 0)
      (by with_unfolding_all rfl)⟩

/-- Concrete setup for the C1 run: a constant cell whose argmax is always
token 0, with end_token 1, so no element ever finishes. -/
def c1Setup : GreedySetup 1 1 2 1 Unit :=
  ⟨fun _ _ => ((), fun _ => 1), fun _ => (), fun _ j => if j = 0 then 1 else 0,
   fun _ => 0, true, fun _ => fun _ => 0, fun _ => 0, 1⟩

/-- The C1 cell never emits the end token, so the helper never finishes any
element. -/
lemma c1_decfin : ∀ (t : ℕ) (inputs : Fin 1 → Vec 1) (state : Fin 1 → Unit) (b : Fin 1),
    ((greedyStep c1Setup) t inputs state).decFin b = false := by
  intro t inputs state b
  have h1 : (greedyStep c1Setup t inputs state).decFin b
      = decide (argmaxVec 2 (denseApply c1Setup.K c1Setup.bias c1Setup.useBias
          (fun _ => (1 : ℚ))) = 1) := rfl
  rw [h1]
  with_unfolding_all decide

/-- Claim C1, evaluated at its failing input: with num_tokens_gen resolved to
5 by __init__ and a cell stack that never emits end_token, the infer decode
emits exactly 200 records — the hard-coded tf.constant(200) bound of
line 283 — not 5 as the spec's stopping rule would require. -/
theorem claim_c1_hardcoded_max_iterations :
    (encodeInfer c1Setup (numTokensGenInit Mode.infer (some 5))).outputs.length = 200 ∧
      numTokensGenInit Mode.infer (some 5) = 5 := by
  refine ⟨?_, by decide⟩
  have hEq : encodeInfer c1Setup (numTokensGenInit Mode.infer (some 5))
      = ddLoop (greedyStep c1Setup) false 200 200 0 (greedyInit c1Setup).2.1
        (greedyInit c1Setup).2.2
        (fun b => (greedyInit c1Setup).1 b || decide (200 ≤ 0)) (fun _ => 0) [] := rfl
  rw [hEq]
  have h := ddLoop_never_fin_len (greedyStep c1Setup) 200 (by omega) c1_decfin
      200 0 (greedyInit c1Setup).2.1 (greedyInit c1Setup).2.2
      (fun b => (greedyInit c1Setup).1 b || decide (200 ≤ 0)) (fun _ => 0) []
      (fun b => by simp [greedyInit]) (by omega)
  rw [h]
  rfl

/-- Claim C7 as amended: holding the cell step function and all parameters
fixed, the train/eval decode is independent of the random embedding-dropout
draw whenever the effective embedding keep probability is 1 — in particular
in eval mode, or in train mode with the configured keep probability 1. -/
theorem claim_c7_amended {e hd v B : ℕ} {σ : Type} (mode : Mode) (c : DropoutConfig)
    (weightTied : Bool) (Kt : Fin e → Fin v → ℚ) (indep : Fin v → Fin e → ℚ)
    (cellStep : σ → Vec e → σ × Vec hd) (s0 : Fin B → σ) (K : Fin hd → Fin v → ℚ)
    (bias : Vec v) (useBias : Bool) (sourceSeq : ℕ → Fin B → ℕ) (seqLen : Fin B → ℕ)
    (hkeep : (effectiveKeepProbs mode c).emb = 1)
    (m1 m2 : Fin v → Fin e → Bool) :
    encodeTrainEval ⟨cellStep, s0, K, bias, useBias,
        buildEncEmbW weightTied Kt indep (effectiveKeepProbs mode c).emb m1,
        sourceSeq, seqLen⟩
      = encodeTrainEval ⟨cellStep, s0, K, bias, useBias,
        buildEncEmbW weightTied Kt indep (effectiveKeepProbs mode c).emb m2,
        sourceSeq, seqLen⟩ := by
  have hW : buildEncEmbW weightTied Kt indep (effectiveKeepProbs mode c).emb m1
      = buildEncEmbW weightTied Kt indep (effectiveKeepProbs mode c).emb m2 := by
    funext i j
    simp [buildEncEmbW, dropoutMat, dropoutScalar, hkeep]
  rw [hW]

/-- Configuration of the C7 counterexample: all keep probabilities 1 except
embedding keep probability 1/2. -/
def c7Config : DropoutConfig := ⟨1, 1, 1, 1, 1/2⟩

/-- Independent embedding table of the C7 counterexample. -/
def c7Indep : Fin 2 → Fin 1 → ℚ := fun _ _ => 1

/-- Tied-kernel argument of the C7 counterexample; unused since weight tying
is off there. -/
def c7KernelT : Fin 1 → Fin 2 → ℚ := fun _ _ => 0

/-- Train-mode setup of the C7 counterexample, parameterized by the random
embedding-dropout mask of the invocation: pass-through cell, one batch
element, ground truth the single token 0 with source length 1. -/
def c7Setup (mask : Fin 2 → Fin 1 → Bool) : TrainSetup 1 1 2 1 Unit :=
  ⟨fun _ x => ((), x), fun _ => (), fun _ j => if j = 0 then 1 else 0, fun _ => 0, true,
   buildEncEmbW false c7KernelT c7Indep (effectiveKeepProbs Mode.train c7Config).emb mask,
   fun _ _ => 0, fun _ => 1⟩

/-- Counterexample to claim C7 as stated: two invocations of the train-mode
encode with identical ground truth, lengths and parameters but different
random embedding-dropout draws produce different step-0 logits (2 against
0), so the logits tensors are not identical. -/
theorem claim_c7_counterexample :
    ((encodeTrainEval (c7Setup (fun _ _ => true))).outputs[0]?).map (fun r => r.logits 0 0) ≠
    ((encodeTrainEval (c7Setup (fun _ _ => false))).outputs[0]?).map (fun r => r.logits 0 0) := by
  with_unfolding_all decide

/-- Eval-mode setup of the C7 witness, parameterized by the random
embedding-dropout mask. -/
def c7EvalSetup (mask : Fin 2 → Fin 1 → Bool) : TrainSetup 1 1 2 1 Unit :=
  ⟨fun _ x => ((), x), fun _ => (), fun _ j => if j = 0 then 1 else 0, fun _ => 0, true,
   buildEncEmbW false c7KernelT c7Indep (effectiveKeepProbs Mode.eval c7Config).emb mask,
   fun _ _ => 0, fun _ => 1⟩

/-- Witness for the amended C7 in eval mode with the counterexample's
parameters and two distinct masks. -/
theorem claim_c7_witness :
    (effectiveKeepProbs Mode.eval c7Config).emb = 1 ∧
      encodeTrainEval (c7EvalSetup (fun _ _ => true))
        = encodeTrainEval (c7EvalSetup (fun _ _ => false)) :=
  ⟨by decide,
    claim_c7_amended Mode.eval c7Config false c7KernelT c7Indep
      (fun _ x => ((), x)) (fun _ => ())
      (fun _ j => if j = 0 then 1 else 0) (fun _ => 0) true
      (fun _ _ => 0) (fun _ => 1) (by decide) (fun _ _ => true) (fun _ _ => false)⟩

/-- Claim C10: with weight tying and embedding dropout, only the embedding
view is affected — the lookup table is the dropped-and-rescaled copy of the
transposed kernel — while every step of the decode computes its logits with
the original, un-dropped kernel K through the output projection. -/
theorem claim_c10_projection_undropped {e v B : ℕ} {σ : Type} (K : Fin e → Fin v → ℚ)
    (indep : Fin v → Fin e → ℚ) (keep : ℚ) (mask : Fin v → Fin e → Bool)
    (cellStep : σ → Vec e → σ × Vec e) (s0 : Fin B → σ) (bias : Vec v) (useBias : Bool)
    (sourceSeq : ℕ → Fin B → ℕ) (seqLen : Fin B → ℕ) :
    (∀ i j, buildEncEmbW true K indep keep mask i j
        = dropoutScalar keep (mask i j) (K j i)) ∧
    (encodeTrainEval ⟨cellStep, s0, K, bias, useBias,
        buildEncEmbW true K indep keep mask, sourceSeq, seqLen⟩).outputs
      = (List.range (batchMax seqLen)).map
          (teRec ⟨cellStep, s0, K, bias, useBias, buildEncEmbW true K indep keep mask,
            sourceSeq, seqLen⟩) :=
  ⟨fun _ _ => rfl,
    (encodeTrainEval_spec ⟨cellStep, s0, K, bias, useBias,
      buildEncEmbW true K indep keep mask, sourceSeq, seqLen⟩).1⟩
